import Mathlib

/-!
Verification of the rule-composition and matching core (crates/core/src/rule.rs).

The syntax tree is modelled as a rose tree; a `Node` is a position in such a
tree: the subtree at that position together with the chain of ancestor
subtrees (nearest parent first), which gives exactly the two navigation
operations the core uses, `children` and `parent`.  The external binding
environment (`MetaVarEnv`) is a list of placeholder-name/node pairs; the
external leaf `Pattern` is an arbitrary function that, like the Rust
`Pattern::match_node(&self, node, &mut env)`, consumes a node and the current
environment and returns the optional matched node together with the (possibly
mutated) environment.  The matcher expression tree (the combinators `And`,
`Or`, `Not`, `Inside`, `NotInside` over leaf patterns) is a deep embedding
`MExpr`, with `matchNode`, `findNode` and `findNodeVec` translated line by
line from the Rust methods `match_node`, `find_node` and `find_node_vec`,
passing the environment state explicitly where Rust mutates it in place.
-/

namespace AstGrep

/-- A syntax (sub)tree: a label and the ordered list of child subtrees. -/
inductive Tree : Type where
  | mk : Nat → List Tree → Tree

/-- The direct child subtrees, in source order. -/
def Tree.kids : Tree → List Tree
  | .mk _ ks => ks

/-- The label at the root of the subtree. -/
def Tree.label : Tree → Nat
  | .mk l _ => l

mutual

/-- Number of nodes of a tree (always at least one). -/
def Tree.size : Tree → Nat
  | .mk _ ks => 1 + Tree.sizeList ks

/-- Total number of nodes of a list of trees. -/
def Tree.sizeList : List Tree → Nat
  | [] => 0
  | t :: ts => Tree.size t + Tree.sizeList ts

end

/-- A position in a syntax tree: the subtree `here` rooted at the position and
the chain of ancestor subtrees, nearest parent first.  This supplies the two
navigation operations the Rust core uses on `Node`: `children()` and
`parent()`. -/
structure Node : Type where
  ancestors : List Tree
  here : Tree

/-- The direct children of a node, in source order (Rust `Node::children`). -/
def Node.children (n : Node) : List Node :=
  n.here.kids.map fun k => ⟨n.here :: n.ancestors, k⟩

/-- The immediate parent of a node, if any (Rust `Node::parent`). -/
def Node.parent (n : Node) : Option Node :=
  match n.ancestors with
  | [] => none
  | a :: rest => some ⟨rest, a⟩

/-- Total tree size of a list of node positions (termination measure for the
tree traversals). -/
def Node.sizeList : List Node → Nat
  | [] => 0
  | c :: cs => c.here.size + Node.sizeList cs

theorem Tree.size_pos (t : Tree) : 1 ≤ t.size := by
  cases t with
  | mk l ks => simp [Tree.size]

theorem Node.sizeList_append (a b : List Node) :
    Node.sizeList (a ++ b) = Node.sizeList a + Node.sizeList b := by
  induction a with
  | nil => simp [Node.sizeList]
  | cons c cs ih => simp [Node.sizeList, ih]; omega

theorem Node.sizeList_map (anc : List Tree) (ks : List Tree) :
    Node.sizeList (ks.map fun k => Node.mk anc k) = Tree.sizeList ks := by
  induction ks with
  | nil => simp [Node.sizeList, Tree.sizeList]
  | cons k ks ih => simp [Node.sizeList, Tree.sizeList, ih]

theorem Node.sizeList_children (n : Node) :
    Node.sizeList n.children + 1 = n.here.size := by
  cases h : n.here with
  | mk l ks =>
    simp [Node.children, h, Tree.kids, Node.sizeList_map, Tree.size]
    omega

/-- The binding environment: a mapping from placeholder names to captured
nodes (the external `MetaVarEnv`, whose representation is opaque to the
core; an association list realises its interface). -/
abbrev MetaVarEnv : Type := List (String × Node)

/-- An empty environment (Rust `MetaVarEnv::new()`). -/
def MetaVarEnv.new : MetaVarEnv := []

/-- The external leaf predicate (`Pattern`): testing a node consumes the
current environment and yields the optional matched node together with the
environment after the attempt (Rust mutates the environment in place through
`&mut`, also on a failed attempt). -/
structure Pattern : Type where
  fn : Node → MetaVarEnv → Option Node × MetaVarEnv

/-- The matcher expression tree: leaf predicates and the combinators of
rule.rs.  `leaf` covers both a `Pattern` and a textual template (the
`impl<S: AsRef<str>> Matcher for S` adaptor compiles the text to a `Pattern`
and delegates to it).  `inside` and `notInside` hold a leaf `Pattern` as
their outer condition, exactly as the Rust structs `Inside { outer: Pattern }`
and `NotInside { outer: Pattern }` do — not an arbitrary matcher. -/
inductive MExpr : Type where
  | leaf (p : Pattern)
  | and (p1 p2 : MExpr)
  | or (p1 p2 : MExpr)
  | not (p : MExpr)
  | inside (outer : Pattern)
  | notInside (outer : Pattern)

/-- Which matcher shapes implement the marker trait `PositiveMatcher`:
leaf predicates do (`impl<S: AsRef<str>> PositiveMatcher for S`, and
`Pattern` itself); `And<P1, P2>` does exactly when `P1` does
(`impl<P1: PositiveMatcher, P2: Matcher> PositiveMatcher for And<P1, P2>`);
`Or<P1, P2>` does exactly when both operands do; `Not`, `Inside` and
`NotInside` have no `PositiveMatcher` impl at all. -/
def MExpr.isPositive : MExpr → Bool
  | .leaf _ => true
  | .and p1 _ => p1.isPositive
  | .or p1 p2 => p1.isPositive && p2.isPositive
  | .not _ => false
  | .inside _ => false
  | .notInside _ => false

/-- The trait bounds on the combinator structs themselves:
`Or<P1: PositiveMatcher, P2: PositiveMatcher>` requires both operands
positive, and `Not<P: PositiveMatcher>` requires its operand positive; a
matcher expression violating one of these bounds does not typecheck in the
Rust source and cannot exist as a value. -/
def MExpr.wellFormed : MExpr → Bool
  | .leaf _ => true
  | .and p1 p2 => p1.wellFormed && p2.wellFormed
  | .or p1 p2 => p1.isPositive && p2.isPositive && p1.wellFormed && p2.wellFormed
  | .not p => p.isPositive && p.wellFormed
  | .inside _ => true
  | .notInside _ => true

/-- The `while let Some(p) = n.parent()` loop of `Inside::match_node`,
phrased over the remaining ancestor chain: test each ancestor in turn with
the outer pattern, threading the environment through failed attempts; on the
first ancestor match return the original candidate `orig`; if the chain runs
out, fail. -/
def insideAux (outer : Pattern) (orig : Node) : List Tree → MetaVarEnv → Option Node × MetaVarEnv
  | [], env => (none, env)
  | a :: rest, env =>
    match outer.fn ⟨rest, a⟩ env with
    | (some _, env1) => (some orig, env1)
    | (none, env1) => insideAux outer orig rest env1

/-- The `while let Some(p) = n.parent()` loop of `NotInside::match_node`:
the same walk, failing on the first ancestor match and succeeding with the
original candidate when the chain is exhausted. -/
def notInsideAux (outer : Pattern) (orig : Node) : List Tree → MetaVarEnv → Option Node × MetaVarEnv
  | [], env => (some orig, env)
  | a :: rest, env =>
    match outer.fn ⟨rest, a⟩ env with
    | (some _, env1) => (none, env1)
    | (none, env1) => notInsideAux outer orig rest env1

/-- `Matcher::match_node`, by cases on the matcher shape, each case
translated from the corresponding `impl Matcher for …` in rule.rs; the
environment is passed through explicitly where Rust mutates it in place:
* `And`: `let node = self.pattern1.match_node(node, env)?;
  self.pattern2.match_node(node, env)` — `P2` runs against the node `P1`
  returned, with the environment as `P1` left it;
* `Or`: `self.pattern1.match_node(node, env).or_else(|| self.pattern2.match_node(node, env))`;
* `Not`: `if self.not.match_node(node, env).is_none() { Some(node) } else { None }`;
* `Inside` / `NotInside`: the parent-chain walks above, started from the
  candidate node. -/
def matchNode : MExpr → Node → MetaVarEnv → Option Node × MetaVarEnv
  | .leaf p, n, env => p.fn n env
  | .and p1 p2, n, env =>
    match matchNode p1 n env with
    | (some n1, env1) => matchNode p2 n1 env1
    | (none, env1) => (none, env1)
  | .or p1 p2, n, env =>
    match matchNode p1 n env with
    | (some n1, env1) => (some n1, env1)
    | (none, env1) => matchNode p2 n env1
  | .not p, n, env =>
    match matchNode p n env with
    | (some _, env1) => (none, env1)
    | (none, env1) => (some n, env1)
  | .inside op, n, env => insideAux op n n.ancestors env
  | .notInside op, n, env => notInsideAux op n n.ancestors env

mutual

/-- `Matcher::find_node`: `self.match_node(node, env).or_else(|| node.children().find_map(|sub| self.find_node(sub, env)))` —
test the node itself; on failure recurse into the children in source order
with the same environment, returning the first success. -/
def findNode (m : MExpr) (n : Node) (env : MetaVarEnv) : Option Node × MetaVarEnv :=
  match matchNode m n env with
  | (some r, env1) => (some r, env1)
  | (none, env1) => findNodeList m n.children env1
termination_by 2 * n.here.size
decreasing_by
  have h := Node.sizeList_children n
  omega

/-- The `find_map` over a child list inside `find_node`: try `find_node` on
each child in order, threading the environment, short-circuiting on the
first success. -/
def findNodeList (m : MExpr) : List Node → MetaVarEnv → Option Node × MetaVarEnv
  | [], env => (none, env)
  | c :: cs, env =>
    match findNode m c env with
    | (some r, env1) => (some r, env1)
    | (none, env1) => findNodeList m cs env1
termination_by cs _ => 2 * Node.sizeList cs + 1
decreasing_by
  · simp only [Node.sizeList]; omega
  · have h := Tree.size_pos c.here
    simp only [Node.sizeList]; omega

end

/-- The `while let Some(cand) = queue.pop_front()` loop of
`Matcher::find_node_vec`: the first list is the FIFO queue (front first), the
second the accumulated result vector.  Dequeue a candidate, enqueue its
children at the back (`queue.extend(cand.children())`), test the candidate
with a fresh empty environment (`MetaVarEnv::new()`), and push the returned
node on success. -/
def findNodeVecGo (m : MExpr) : List Node → List Node → List Node
  | [], ret => ret
  | cand :: queue, ret =>
    match (matchNode m cand MetaVarEnv.new).fst with
    | some matched => findNodeVecGo m (queue ++ cand.children) (ret ++ [matched])
    | none => findNodeVecGo m (queue ++ cand.children) ret
termination_by q _ => Node.sizeList q
decreasing_by
  all_goals
    have h1 := Node.sizeList_children cand
    have h2 := Node.sizeList_append queue cand.children
    simp only [Node.sizeList]
    omega

/-- `Matcher::find_node_vec`: run the queue loop with the queue seeded with
the start node and an empty result vector. -/
def findNodeVec (m : MExpr) (node : Node) : List Node :=
  findNodeVecGo m [node] []

/-- Level-order (breadth-first) enumeration of the positions reachable from a
queue of positions: dequeue a position, record it, enqueue its children.
`bfsOrder [n]` is the order in which `find_node_vec` dequeues and tests the
candidates of the subtree rooted at `n`. -/
def bfsOrder : List Node → List Node
  | [] => []
  | c :: rest => c :: bfsOrder (rest ++ c.children)
termination_by l => Node.sizeList l
decreasing_by
  have h1 := Node.sizeList_children c
  simp only [Node.sizeList_append, Node.sizeList]
  omega

mutual

/-- Pre-order (depth-first) enumeration of the subtree rooted at a node: the
node itself, then the pre-orders of its children in source order. -/
def preorder (n : Node) : List Node :=
  n :: preorderList n.children
termination_by 2 * n.here.size
decreasing_by
  have h := Node.sizeList_children n
  omega

/-- Concatenated pre-orders of a list of positions. -/
def preorderList : List Node → List Node
  | [] => []
  | c :: cs => preorder c ++ preorderList cs
termination_by cs => 2 * Node.sizeList cs + 1
decreasing_by
  · simp only [Node.sizeList]; omega
  · have h := Tree.size_pos c.here
    simp only [Node.sizeList]; omega

end

/-- Specification-side description of the depth-first search: try
`match_node` on each candidate of a given visit sequence in order, threading
the single environment through failed attempts (no clearing), returning the
first success. -/
def dfsSpec (m : MExpr) : List Node → MetaVarEnv → Option Node × MetaVarEnv
  | [], env => (none, env)
  | c :: cs, env =>
    match matchNode m c env with
    | (some r, env1) => (some r, env1)
    | (none, env1) => dfsSpec m cs env1

/-- The matcher expressions that can be the private `inner` field of a value
of type `Rule<M>` obtained through the public builder surface of rule.rs.
`Rule { inner }` has a private field and no public constructor, so a `Rule`
value arises only from the four chaining operations:
* `AndRule<M>::and` (with `M: PositiveMatcher`, and `AndRule` itself only
  arises from `Rule::all`, which demands a positive matcher);
* `Rule<And<M, N>>::and` (the impl demands `M: PositiveMatcher`);
* `EitherRule<M>::or` (with `M: PositiveMatcher`, `EitherRule` only arises
  from `Rule::either`; the operand must be positive — `Or`’s struct bound);
* `Rule<Or<M, N>>::or` (the impl demands `M`, `N` and the operand positive). -/
inductive BuilderRule : MExpr → Prop where
  | and_chain (p q : MExpr) : p.isPositive = true → BuilderRule (MExpr.and p q)
  | and_step (p q r : MExpr) : p.isPositive = true → BuilderRule (MExpr.and p q) →
      BuilderRule (MExpr.and (MExpr.and p q) r)
  | or_chain (p q : MExpr) : p.isPositive = true → q.isPositive = true →
      BuilderRule (MExpr.or p q)
  | or_step (p q r : MExpr) : p.isPositive = true → q.isPositive = true →
      r.isPositive = true → BuilderRule (MExpr.or p q) →
      BuilderRule (MExpr.or (MExpr.or p q) r)

/-- The matcher of a finalized rule: `Rule::build` is declared in
`impl<M: PositiveMatcher> Rule<M>`, so it can be called exactly on a
builder-constructed `Rule` whose accumulated matcher is classified positive,
and it returns that matcher unchanged. -/
def FinalizedRule (m : MExpr) : Prop :=
  BuilderRule m ∧ m.isPositive = true

/-- A leaf predicate is node-preserving when, on success, it returns the very
node it was given (the spec's "on success return the matched Node (normally
the input node)"). -/
def Pattern.preserving (p : Pattern) : Prop :=
  ∀ n env, (p.fn n env).fst = none ∨ (p.fn n env).fst = some n

/-- A matcher expression all of whose result-determining leaf predicates are
node-preserving.  (`Not`, `Inside` and `NotInside` return the original
candidate by construction, whatever their inner pattern returns.) -/
def MExpr.preserving : MExpr → Prop
  | .leaf p => p.preserving
  | .and p1 p2 => p1.preserving ∧ p2.preserving
  | .or p1 p2 => p1.preserving ∧ p2.preserving
  | .not _ => True
  | .inside _ => True
  | .notInside _ => True

/-- The nodes visited when walking parent links upward from a position with
the given ancestor chain: the parent, the grandparent, …, the root. -/
def chainOf : List Tree → List Node
  | [] => []
  | a :: rest => Node.mk rest a :: chainOf rest

/-- The ancestor chain of a node, nearest parent first. -/
def Node.ancestorChain (n : Node) : List Node :=
  chainOf n.ancestors

/-- Specification-side description of the ancestor walk: whether some element
of a chain of candidate ancestors matches the outer pattern, testing the
elements in order and threading the environment through failed attempts. -/
def anyAncestorMatch (p : Pattern) : List Node → MetaVarEnv → Bool
  | [], _ => false
  | a :: rest, env =>
    match p.fn a env with
    | (some _, _) => true
    | (none, env1) => anyAncestorMatch p rest env1

/-- Sample leaf predicate matching every node, capturing nothing. -/
def patAny : Pattern :=
  ⟨fun n env => (some n, env)⟩

/-- Sample leaf predicate matching exactly the nodes with the given label and
recording a capture under the placeholder name `"A"`. -/
def patLabel (l : Nat) : Pattern :=
  ⟨fun n env => if n.here.label = l then (some n, ("A", n) :: env) else (none, env)⟩

/-- Sample tree: a root with label 0 whose two children carry labels 1 and 0. -/
def tree0 : Tree :=
  Tree.mk 0 [Tree.mk 1 [], Tree.mk 0 []]

/-- The root position of `tree0`. -/
def node0 : Node :=
  ⟨[], tree0⟩

/-- Sample finalized matcher: `Rule::all(anything).and(Rule::not(label 1)).build()`. -/
def mSample : MExpr :=
  MExpr.and (MExpr.leaf patAny) (MExpr.not (MExpr.leaf (patLabel 1)))

/-- C4: `And(P1, P2).match_node` fails whenever `P1` fails on the node; when
`P1` succeeds returning a node `n1`, the conjunction's result is exactly
`P2.match_node(n1, env)` evaluated with the environment as `P1` left it (so
`P2` observes `P1`'s bindings); and the conjunction succeeds iff both
succeed, its result being `P2`'s returned node.  Proved for arbitrary
matchers `P1`, `P2`, hence in particular whenever `P1` is positive. -/
theorem and_matchNode_spec (p1 p2 : MExpr) (n : Node) (env : MetaVarEnv) :
    ((matchNode p1 n env).fst = none → (matchNode (MExpr.and p1 p2) n env).fst = none)
    ∧ (∀ n1, (matchNode p1 n env).fst = some n1 →
        matchNode (MExpr.and p1 p2) n env = matchNode p2 n1 (matchNode p1 n env).snd)
    ∧ ((matchNode (MExpr.and p1 p2) n env).fst.isSome = true ↔
        ∃ n1, (matchNode p1 n env).fst = some n1 ∧
          (matchNode p2 n1 (matchNode p1 n env).snd).fst.isSome = true) := by
  rcases h : matchNode p1 n env with ⟨r, env1⟩
  cases r with
  | none =>
    refine ⟨fun _ => by simp [matchNode, h], fun n1 h1 => by simp [h] at h1, ?_⟩
    simp [matchNode, h]
  | some n1 =>
    refine ⟨fun h1 => by simp [h] at h1, fun n2 h2 => ?_, ?_⟩
    · simp only [h, Option.some.injEq] at h2
      subst h2
      simp [matchNode, h]
    · simp [matchNode, h]

/-- C5: `Or(P1, P2).match_node` returns `P1`'s result when `P1` succeeds,
without attempting `P2` (short-circuit); when `P1` fails it returns the
result of trying `P2` against the original node with the same environment
object (whose contents reflect whatever mutation `P1`'s failed attempt made —
in Rust the one `&mut` environment is simply passed on); and the disjunction
succeeds iff `P1` matches or `P2` does. -/
theorem or_matchNode_spec (p1 p2 : MExpr) (n : Node) (env : MetaVarEnv) :
    (∀ n1, (matchNode p1 n env).fst = some n1 →
        matchNode (MExpr.or p1 p2) n env = matchNode p1 n env)
    ∧ ((matchNode p1 n env).fst = none →
        matchNode (MExpr.or p1 p2) n env = matchNode p2 n (matchNode p1 n env).snd)
    ∧ ((matchNode (MExpr.or p1 p2) n env).fst.isSome =
        ((matchNode p1 n env).fst.isSome
          || (matchNode p2 n (matchNode p1 n env).snd).fst.isSome)) := by
  rcases h : matchNode p1 n env with ⟨r, env1⟩
  cases r with
  | none =>
    refine ⟨fun n1 h1 => by simp [h] at h1, fun _ => by simp [matchNode, h], ?_⟩
    simp [matchNode, h]
  | some n1 =>
    refine ⟨fun n2 _ => by simp [matchNode, h], fun h1 => by simp [h] at h1, ?_⟩
    simp [matchNode, h]

/-- C6: `Not(M).match_node` succeeds, returning the original candidate node
unchanged, exactly when `M.match_node` fails on that very node (no descent
into children), and fails exactly when `M` succeeds; the environment is the
one `M`'s attempt left behind.  Proved for an arbitrary inner matcher, hence
in particular for positive ones. -/
theorem not_matchNode_spec (p : MExpr) (n : Node) (env : MetaVarEnv) :
    ((matchNode (MExpr.not p) n env).fst = some n ↔ (matchNode p n env).fst = none)
    ∧ ((matchNode (MExpr.not p) n env).fst = none ↔ (matchNode p n env).fst.isSome = true)
    ∧ ((matchNode (MExpr.not p) n env).snd = (matchNode p n env).snd) := by
  rcases h : matchNode p n env with ⟨r, env1⟩
  cases r with
  | none => simp [matchNode, h]
  | some n1 => simp [matchNode, h]

/-- C1: through the public builder surface it is impossible to finalize a
rule whose matcher is solely a negation: every matcher a builder-constructed
`Rule` can hold and hand to `build` (whose impl block demands a positive
matcher) is positive and is never a `Not`, and a `Not` is never classified
positive. -/
theorem finalizedRule_not_negation (m : MExpr) (h : FinalizedRule m) :
    (∀ p, m ≠ MExpr.not p) ∧ (∀ p, (MExpr.not p).isPositive = false) := by
  refine ⟨fun p e => ?_, fun p => rfl⟩
  rcases h with ⟨_, hpos⟩
  rw [e] at hpos
  simp [MExpr.isPositive] at hpos

/-- Witness for C1 at the concrete builder chain
`Rule::all(patAny).and(Rule::not(patLabel 1)).build()`. -/
theorem finalizedRule_not_negation_witness :
    (∀ p, mSample ≠ MExpr.not p) ∧ (∀ p, (MExpr.not p).isPositive = false) :=
  finalizedRule_not_negation mSample
    ⟨BuilderRule.and_chain (MExpr.leaf patAny) (MExpr.not (MExpr.leaf (patLabel 1))) rfl, rfl⟩

/-- C10: `Inside` and `NotInside` are classified plain — neither has a
`PositiveMatcher` impl (the constructors of `MExpr` record that each holds a
leaf `Pattern` as its outer condition, as the Rust structs do).  Consequently
neither can start an `And`- or `Or`-chain through `Rule::all` / `Rule::either`,
neither can be a disjunction operand or the target of `Rule::not` (the struct
bounds of `Or` and `Not` demand positive matchers), and neither can be
finalized alone as a complete `Rule`; folding one into an `And`-chain as a
refinement term keeps the chain's classification. -/
theorem inside_notInside_plain (p : Pattern) (q : MExpr) :
    ((MExpr.inside p).isPositive = false)
    ∧ ((MExpr.notInside p).isPositive = false)
    ∧ (¬ FinalizedRule (MExpr.inside p))
    ∧ (¬ FinalizedRule (MExpr.notInside p))
    ∧ (¬ BuilderRule (MExpr.and (MExpr.inside p) q))
    ∧ (¬ BuilderRule (MExpr.and (MExpr.notInside p) q))
    ∧ (¬ BuilderRule (MExpr.or (MExpr.inside p) q))
    ∧ (¬ BuilderRule (MExpr.or q (MExpr.inside p)))
    ∧ ((MExpr.or (MExpr.inside p) q).wellFormed = false)
    ∧ ((MExpr.or q (MExpr.inside p)).wellFormed = false)
    ∧ ((MExpr.not (MExpr.inside p)).wellFormed = false)
    ∧ ((MExpr.not (MExpr.notInside p)).wellFormed = false)
    ∧ ((MExpr.and q (MExpr.inside p)).isPositive = q.isPositive)
    ∧ ((MExpr.and q (MExpr.notInside p)).isPositive = q.isPositive) := by
  refine ⟨rfl, rfl, ?_, ?_, ?_, ?_, ?_, ?_, ?_, ?_, ?_, ?_, rfl, rfl⟩
  · rintro ⟨-, hpos⟩; simp [MExpr.isPositive] at hpos
  · rintro ⟨-, hpos⟩; simp [MExpr.isPositive] at hpos
  · intro h; cases h with
    | and_chain _ _ hpos => simp [MExpr.isPositive] at hpos
  · intro h; cases h with
    | and_chain _ _ hpos => simp [MExpr.isPositive] at hpos
  · intro h; cases h with
    | or_chain _ _ hpos _ => simp [MExpr.isPositive] at hpos
  · intro h; cases h with
    | or_chain _ _ _ hpos => simp [MExpr.isPositive] at hpos
    | or_step _ _ _ _ _ hpos _ => simp [MExpr.isPositive] at hpos
  · simp [MExpr.wellFormed, MExpr.isPositive]
  · simp [MExpr.wellFormed, MExpr.isPositive]
  · simp [MExpr.wellFormed, MExpr.isPositive]
  · simp [MExpr.wellFormed, MExpr.isPositive]

theorem insideAux_fst (op : Pattern) (orig : Node) (anc : List Tree) (env : MetaVarEnv) :
    (insideAux op orig anc env).fst =
      if anyAncestorMatch op (chainOf anc) env = true then some orig else none := by
  induction anc generalizing env with
  | nil => simp [insideAux, anyAncestorMatch, chainOf]
  | cons a rest ih =>
    rcases h : op.fn ⟨rest, a⟩ env with ⟨r, env1⟩
    cases r with
    | none => simp [insideAux, anyAncestorMatch, chainOf, h, ih]
    | some n1 => simp [insideAux, anyAncestorMatch, chainOf, h]

theorem notInsideAux_fst (op : Pattern) (orig : Node) (anc : List Tree) (env : MetaVarEnv) :
    (notInsideAux op orig anc env).fst =
      if anyAncestorMatch op (chainOf anc) env = true then none else some orig := by
  induction anc generalizing env with
  | nil => simp [notInsideAux, anyAncestorMatch, chainOf]
  | cons a rest ih =>
    rcases h : op.fn ⟨rest, a⟩ env with ⟨r, env1⟩
    cases r with
    | none => simp [notInsideAux, anyAncestorMatch, chainOf, h, ih]
    | some n1 => simp [notInsideAux, anyAncestorMatch, chainOf, h]

theorem notInsideAux_snd_eq (op : Pattern) (orig : Node) (anc : List Tree) (env : MetaVarEnv) :
    (notInsideAux op orig anc env).snd = (insideAux op orig anc env).snd := by
  induction anc generalizing env with
  | nil => simp [notInsideAux, insideAux]
  | cons a rest ih =>
    rcases h : op.fn ⟨rest, a⟩ env with ⟨r, env1⟩
    cases r with
    | none => simp [notInsideAux, insideAux, h, ih]
    | some n1 => simp [notInsideAux, insideAux, h]

/-- C7: `Inside(M)` succeeds — returning the original candidate node — iff
some element of the candidate's ancestor chain (parent, grandparent, …, root)
matches the outer pattern, and fails iff the chain is exhausted with no
match; `NotInside(M)` is the exact logical complement over the same finite
chain, succeeding with the original node iff no ancestor matches, and the
two walks leave the environment in exactly the same state. -/
theorem inside_notInside_complement (op : Pattern) (n : Node) (env : MetaVarEnv) :
    ((matchNode (MExpr.inside op) n env).fst = some n ↔
        anyAncestorMatch op n.ancestorChain env = true)
    ∧ ((matchNode (MExpr.inside op) n env).fst = none ↔
        anyAncestorMatch op n.ancestorChain env = false)
    ∧ ((matchNode (MExpr.notInside op) n env).fst = some n ↔
        anyAncestorMatch op n.ancestorChain env = false)
    ∧ ((matchNode (MExpr.notInside op) n env).fst = none ↔
        anyAncestorMatch op n.ancestorChain env = true)
    ∧ ((matchNode (MExpr.notInside op) n env).fst.isSome
        = !(matchNode (MExpr.inside op) n env).fst.isSome)
    ∧ ((matchNode (MExpr.notInside op) n env).snd
        = (matchNode (MExpr.inside op) n env).snd) := by
  have hi := insideAux_fst op n n.ancestors env
  have hn := notInsideAux_fst op n n.ancestors env
  have hs := notInsideAux_snd_eq op n n.ancestors env
  simp only [matchNode, Node.ancestorChain]
  cases h : anyAncestorMatch op (chainOf n.ancestors) env <;> simp_all

theorem preorderList_append (a b : List Node) :
    preorderList (a ++ b) = preorderList a ++ preorderList b := by
  induction a with
  | nil => simp [preorderList]
  | cons c cs ih => simp [preorderList, ih]

theorem dfsSpec_append (m : MExpr) (l1 l2 : List Node) (env : MetaVarEnv) :
    dfsSpec m (l1 ++ l2) env =
      if (dfsSpec m l1 env).fst.isSome then dfsSpec m l1 env
      else dfsSpec m l2 (dfsSpec m l1 env).snd := by
  induction l1 generalizing env with
  | nil => simp [dfsSpec]
  | cons c cs ih =>
    rcases h : matchNode m c env with ⟨r, env1⟩
    cases r with
    | none => simp [dfsSpec, h, ih]
    | some n1 => simp [dfsSpec, h]

theorem findNode_findNodeList_eq (m : MExpr) (k : Nat) :
    (∀ n : Node, n.here.size ≤ k →
      ∀ env, findNode m n env = dfsSpec m (preorder n) env)
    ∧ (∀ cs : List Node, Node.sizeList cs ≤ k →
      ∀ env, findNodeList m cs env = dfsSpec m (preorderList cs) env) := by
  induction k with
  | zero =>
    constructor
    · intro n hn
      have := Tree.size_pos n.here
      omega
    · intro cs hcs env
      cases cs with
      | nil => simp [findNodeList, preorderList, dfsSpec]
      | cons c rest =>
        have := Tree.size_pos c.here
        simp [Node.sizeList] at hcs
        omega
  | succ k ih =>
    have hN : ∀ n : Node, n.here.size ≤ k + 1 →
        ∀ env, findNode m n env = dfsSpec m (preorder n) env := by
      intro n hn env
      have hch : Node.sizeList n.children ≤ k := by
        have := Node.sizeList_children n
        omega
      rcases h : matchNode m n env with ⟨r, env1⟩
      cases r with
      | none =>
        rw [findNode, preorder]
        simp only [h, dfsSpec]
        exact ih.2 n.children hch env1
      | some n1 =>
        rw [findNode, preorder]
        simp only [h, dfsSpec]
    have hL : ∀ cs : List Node, Node.sizeList cs ≤ k + 1 →
        ∀ env, findNodeList m cs env = dfsSpec m (preorderList cs) env := by
      intro cs hcs env
      cases cs with
      | nil => simp [findNodeList, preorderList, dfsSpec]
      | cons c rest =>
        have hc : c.here.size ≤ k + 1 := by
          simp only [Node.sizeList] at hcs
          have := Tree.size_pos c.here
          omega
        have hrest : Node.sizeList rest ≤ k := by
          simp only [Node.sizeList] at hcs
          have := Tree.size_pos c.here
          omega
        have hfc := hN c hc env
        rw [findNodeList, preorderList, dfsSpec_append, hfc]
        rcases hd : dfsSpec m (preorder c) env with ⟨r, env1⟩
        cases r with
        | none =>
          simp only [Option.isSome_none, Bool.false_eq_true, if_false]
          exact ih.2 rest hrest env1
        | some n1 => simp
    exact ⟨hN, hL⟩

/-- C3: `find_node` is a pre-order, short-circuit depth-first search: it
equals trying `match_node` on the candidates of the pre-order enumeration of
the subtree (the node itself, then each child's subtree in source order) and
stopping at the first success, with the single environment threaded through
the whole search — the bindings a failed attempt at an earlier (in
particular ancestor) candidate wrote are carried, uncleared, into the later
attempts. -/
theorem findNode_eq_preorder_search (m : MExpr) (n : Node) (env : MetaVarEnv) :
    findNode m n env = dfsSpec m (preorder n) env :=
  (findNode_findNodeList_eq m n.here.size).1 n (Nat.le_refl _) env

theorem findNodeVecGo_eq (m : MExpr) (k : Nat) :
    ∀ q : List Node, Node.sizeList q ≤ k → ∀ ret,
      findNodeVecGo m q ret =
        ret ++ (bfsOrder q).filterMap fun c => (matchNode m c MetaVarEnv.new).fst := by
  induction k with
  | zero =>
    intro q hq ret
    cases q with
    | nil => simp [findNodeVecGo, bfsOrder]
    | cons c rest =>
      have := Tree.size_pos c.here
      simp only [Node.sizeList] at hq
      omega
  | succ k ih =>
    intro q hq ret
    cases q with
    | nil => simp [findNodeVecGo, bfsOrder]
    | cons cand queue =>
      have hm : Node.sizeList (queue ++ cand.children) ≤ k := by
        have h1 := Node.sizeList_children cand
        have h2 := Node.sizeList_append queue cand.children
        simp only [Node.sizeList] at hq
        omega
      rcases h : (matchNode m cand MetaVarEnv.new).fst with _ | matched
      · have := ih (queue ++ cand.children) hm ret
        simp [findNodeVecGo, bfsOrder, h, this]
      · have := ih (queue ++ cand.children) hm (ret ++ [matched])
        simp [findNodeVecGo, bfsOrder, h, this]

theorem findNodeVec_filterMap (m : MExpr) (n : Node) :
    findNodeVec m n =
      (bfsOrder [n]).filterMap fun c => (matchNode m c MetaVarEnv.new).fst := by
  have := findNodeVecGo_eq m (Node.sizeList [n]) [n] (Nat.le_refl _) []
  simpa [findNodeVec] using this

theorem bfsOrder_perm_aux (k : Nat) :
    ∀ q : List Node, Node.sizeList q ≤ k → (bfsOrder q).Perm (preorderList q) := by
  induction k with
  | zero =>
    intro q hq
    cases q with
    | nil => simp [bfsOrder, preorderList]
    | cons c rest =>
      have := Tree.size_pos c.here
      simp only [Node.sizeList] at hq
      omega
  | succ k ih =>
    intro q hq
    cases q with
    | nil => simp [bfsOrder, preorderList]
    | cons c queue =>
      have hm : Node.sizeList (queue ++ c.children) ≤ k := by
        have h1 := Node.sizeList_children c
        have h2 := Node.sizeList_append queue c.children
        simp only [Node.sizeList] at hq
        omega
      have hrec := ih (queue ++ c.children) hm
      rw [preorderList_append] at hrec
      have hgoal : (bfsOrder (c :: queue)).Perm
          (c :: (preorderList queue ++ preorderList c.children)) := by
        rw [bfsOrder]
        exact hrec.cons c
      refine hgoal.trans ?_
      rw [preorderList, preorder]
      refine (List.Perm.cons c List.perm_append_comm).trans ?_
      simp

theorem bfsOrder_perm_preorder (n : Node) :
    (bfsOrder [n]).Perm (preorder n) := by
  have := bfsOrder_perm_aux (Node.sizeList [n]) [n] (Nat.le_refl _)
  simpa [preorderList] using this

theorem matchNode_preserving (m : MExpr) :
    ∀ n env, m.preserving →
      (matchNode m n env).fst = none ∨ (matchNode m n env).fst = some n := by
  induction m with
  | leaf p =>
    intro n env h
    exact h n env
  | and p1 p2 ih1 ih2 =>
    intro n env h
    rcases h with ⟨h1, h2⟩
    rcases hm : matchNode p1 n env with ⟨r, env1⟩
    cases r with
    | none => left; simp [matchNode, hm]
    | some n1 =>
      have hpres := ih1 n env h1
      rw [hm] at hpres
      simp only [Option.some.injEq] at hpres
      rcases hpres with hpres | hpres
      · exact absurd hpres (by simp)
      · rw [hpres] at hm
        have := ih2 n env1 h2
        simpa [matchNode, hm] using this
  | or p1 p2 ih1 ih2 =>
    intro n env h
    rcases h with ⟨h1, h2⟩
    rcases hm : matchNode p1 n env with ⟨r, env1⟩
    cases r with
    | none =>
      have := ih2 n env1 h2
      simpa [matchNode, hm] using this
    | some n1 =>
      have hpres := ih1 n env h1
      rw [hm] at hpres
      simp only [Option.some.injEq] at hpres
      rcases hpres with hpres | hpres
      · exact absurd hpres (by simp)
      · rw [hpres] at hm
        right; simp [matchNode, hm]
  | not p ih =>
    intro n env _
    rcases hm : matchNode p n env with ⟨r, env1⟩
    cases r with
    | none => right; simp [matchNode, hm]
    | some n1 => left; simp [matchNode, hm]
  | inside op =>
    intro n env _
    have := insideAux_fst op n n.ancestors env
    simp only [matchNode]
    rw [this]
    cases anyAncestorMatch op (chainOf n.ancestors) env <;> simp
  | notInside op =>
    intro n env _
    have := notInsideAux_fst op n n.ancestors env
    simp only [matchNode]
    rw [this]
    cases anyAncestorMatch op (chainOf n.ancestors) env <;> simp

theorem filterMap_eq_filter_of_id (l : List Node) (f : Node → Option Node)
    (h : ∀ c ∈ l, f c = none ∨ f c = some c) :
    l.filterMap f = l.filter fun c => (f c).isSome := by
  induction l with
  | nil => simp
  | cons c cs ih =>
    have hcs := ih fun x hx => h x (by simp [hx])
    rcases h c (by simp) with hc | hc <;>
      simp [List.filterMap_cons, List.filter_cons, hc, hcs]

/-- C2: `find_node_vec` visits exactly the nodes of the subtree rooted at the
start node (the level-order enumeration `bfsOrder [n]` is a permutation of
the subtree's pre-order node list), with no early termination, and returns —
in dequeue order — precisely the candidates that pass `match_node` under a
fresh empty environment: the result is the level-order visit sequence
filtered by an independent `match_node` test, hence a subsequence of the
subtree's nodes in level order, each element of which satisfies `match_node`
on its own.  The hypothesis says each leaf pattern returns the node it was
given when it succeeds (the contract of the external leaf predicate). -/
theorem findNodeVec_levelOrder_filter (m : MExpr) (n : Node) (h : m.preserving) :
    (findNodeVec m n =
      (bfsOrder [n]).filter fun c => (matchNode m c MetaVarEnv.new).fst.isSome)
    ∧ (findNodeVec m n).Sublist (bfsOrder [n])
    ∧ (∀ c ∈ findNodeVec m n, (matchNode m c MetaVarEnv.new).fst = some c)
    ∧ (bfsOrder [n]).Perm (preorder n) := by
  have heq := findNodeVec_filterMap m n
  have hfilter : findNodeVec m n =
      (bfsOrder [n]).filter fun c => (matchNode m c MetaVarEnv.new).fst.isSome := by
    rw [heq]
    exact filterMap_eq_filter_of_id _ _ fun c hc =>
      matchNode_preserving m c MetaVarEnv.new h
  refine ⟨hfilter, ?_, ?_, bfsOrder_perm_preorder n⟩
  · rw [hfilter]
    exact List.filter_sublist _
  · intro c hc
    rw [hfilter] at hc
    have hmem := List.of_mem_filter hc
    rcases matchNode_preserving m c MetaVarEnv.new h with hnone | hsome
    · rw [hnone] at hmem
      simp at hmem
    · exact hsome

/-- Witness for C2 at the two-level sample tree and the sample matcher
`And(patAny, Not(patLabel 1))`, whose leaf patterns return their input node
on success. -/
theorem findNodeVec_levelOrder_filter_witness :
    (findNodeVec mSample node0 =
      (bfsOrder [node0]).filter fun c => (matchNode mSample c MetaVarEnv.new).fst.isSome)
    ∧ (findNodeVec mSample node0).Sublist (bfsOrder [node0])
    ∧ (∀ c ∈ findNodeVec mSample node0,
        (matchNode mSample c MetaVarEnv.new).fst = some c)
    ∧ (bfsOrder [node0]).Perm (preorder node0) :=
  findNodeVec_levelOrder_filter mSample node0
    ⟨fun _ _ => Or.inr rfl, trivial⟩

/-- C8: re-running `find_node_vec` on an unchanged tree with the same rule
yields an identical ordered result sequence; moreover no state is carried
between invocations or candidates — the queue loop only ever appends to the
result vector it was handed, so a run's output is a pure function of the
matcher and the start node. -/
theorem findNodeVec_idempotent (m : MExpr) (n : Node) (ret : List Node) :
    (findNodeVec m n = findNodeVec m n)
    ∧ (findNodeVecGo m [n] ret = ret ++ findNodeVec m n) := by
  refine ⟨rfl, ?_⟩
  have h1 := findNodeVecGo_eq m (Node.sizeList [n]) [n] (Nat.le_refl _) ret
  have h2 := findNodeVec_filterMap m n
  rw [h1, h2]

/-- C9: `find_node_vec` exposes no placeholder bindings to its caller: every
candidate is tested under a freshly created empty environment
(`MetaVarEnv.new`), only the first component of the test's outcome — the
matched node — is kept, and the environment component (with every binding a
successful match captured) is dropped; the operation takes no environment in
and returns only the sequence of matched nodes. -/
theorem findNodeVec_no_env_exposure (m : MExpr) (n : Node) :
    findNodeVec m n =
      (bfsOrder [n]).filterMap fun c => (matchNode m c MetaVarEnv.new).fst :=
  findNodeVec_filterMap m n

end AstGrep
